import Mathlib

/-!
Verification of the stock-chart computation engine of
src/client/src/components/StockChart/StockChart.jsx.

The development shallowly embeds the chart logic: OHLCV records, the
trailing moving average, the d3-style left bisector used by the crosshair
nearest-point lookup, the volume-bar color classification, the scale-domain
derivation, the empty-data render guard, and the resize-listener event key.
Prices, dates and volumes are modelled as rationals (the JS code performs
only field arithmetic and comparisons on them); the nullable volume field
is an option.
-/

/-- One OHLCV record, as consumed by StockChart.jsx.  The JS objects carry
numeric date/open/high/low/close and a possibly-null volume. -/
structure OhlcvRecord where
  date : ℚ
  «open» : ℚ
  high : ℚ
  low : ℚ
  close : ℚ
  volume : Option ℚ
deriving DecidableEq, Repr, Inhabited

/-- One point of the moving-average overlay, as produced by `movingAverage`. -/
structure MovingAveragePoint where
  date : ℚ
  average : ℚ
deriving DecidableEq, Repr, Inhabited

/-- Embedding of `movingAverage(data, numberOfPricePoints)` (StockChart.jsx
lines 47-61): for each index, slice the whole array from
`Math.max(0, index - numberOfPricePoints)` through `index` inclusive, sum the
`close` fields with a left fold starting at 0, and divide by the slice
length. -/
def movingAverage (data : List OhlcvRecord) (numberOfPricePoints : ℕ) :
    List MovingAveragePoint :=
  data.mapIdx (fun index row =>
    let start : ℕ := (max 0 ((index : ℤ) - (numberOfPricePoints : ℤ))).toNat
    let subset : List OhlcvRecord := (data.drop start).take (index + 1 - start)
    let sum : ℚ := subset.foldl (fun a b => a + b.close) 0
    { date := row.date, average := sum / (subset.length : ℚ) })

/-- Spec-side definition, following the spec's words: the arithmetic mean of
`close` over the index window `[max(0, i-w), i]` inclusive. -/
def windowMeanSpec (data : List OhlcvRecord) (w i : ℕ) : ℚ :=
  let lo : ℕ := (max 0 ((i : ℤ) - (w : ℤ))).toNat
  (∑ j ∈ Finset.Icc lo i, (data.getD j default).close) / ((i - lo + 1 : ℕ) : ℚ)

/-- `renderChart` computes the moving average with parameter 49
(StockChart.jsx line 149: 49 lookback records plus the current one). -/
def movingAverageWindowSize : ℕ := 49

/-- The moving-average series actually plotted by `renderChart`. -/
def movingAverageData (data : List OhlcvRecord) : List MovingAveragePoint :=
  movingAverage data movingAverageWindowSize

lemma getD_eq_get {α : Type} (l : List α) (d : α) {i : ℕ} (h : i < l.length) :
    l.getD i d = l.get ⟨i, h⟩ := by
  simp [List.getD_eq_getElem?_getD, List.getElem?_eq_getElem h]

lemma foldl_add_close (l : List OhlcvRecord) (a : ℚ) :
    l.foldl (fun a b => a + b.close) a = a + (l.map (fun r => r.close)).sum := by
  induction l generalizing a with
  | nil => simp
  | cons r t ih => simp [ih, add_assoc]

lemma sum_map_eq_sum_range {α : Type} (l : List α) (f : α → ℚ) (d : α) :
    (l.map f).sum = ∑ j ∈ Finset.range l.length, f (l.getD j d) := by
  induction l with
  | nil => simp
  | cons a t ih =>
      rw [List.map_cons, List.sum_cons, List.length_cons, Finset.sum_range_succ']
      simp only [List.getD_cons_succ, List.getD_cons_zero]
      rw [← ih]
      exact (add_comm _ _)

lemma getD_take_drop (l : List OhlcvRecord) (lo k j : ℕ) (hj : j < k)
    (hjl : lo + j < l.length) :
    ((l.drop lo).take k).getD j default = l.getD (lo + j) default := by
  have h2 : j < (l.drop lo).length := by
    simp only [List.length_drop]; omega
  have h1 : j < ((l.drop lo).take k).length := by
    simp only [List.length_take, List.length_drop]; omega
  rw [getD_eq_get _ _ h1, getD_eq_get _ _ hjl]
  simp [List.get_eq_getElem]

lemma movingAverage_length (data : List OhlcvRecord) (w : ℕ) :
    (movingAverage data w).length = data.length := by
  simp [movingAverage]

lemma windowMeanSpec_zero (data : List OhlcvRecord) (w : ℕ) :
    windowMeanSpec data w 0 = (data.getD 0 default).close := by
  have h0 : (max 0 ((0 : ℤ) - (w : ℤ))).toNat = 0 := by omega
  rw [windowMeanSpec]
  simp [h0]

lemma movingAverage_getD (data : List OhlcvRecord) (w i : ℕ)
    (h : i < data.length) :
    (movingAverage data w).getD i default =
      { date := (data.getD i default).date,
        average := windowMeanSpec data w i } := by
  have hlen : i < (movingAverage data w).length := by
    rwa [movingAverage_length]
  rw [getD_eq_get _ _ hlen, getD_eq_get _ _ h]
  refine Eq.trans (List.get_mapIdx data _ i h) ?_
  have hlo : (max 0 ((i : ℤ) - (w : ℤ))).toNat = i - w := by omega
  simp only [hlo]
  have hsublen : ((data.drop (i - w)).take (i + 1 - (i - w))).length
      = i + 1 - (i - w) := by
    simp only [List.length_take, List.length_drop]; omega
  have hsum : ((data.drop (i - w)).take (i + 1 - (i - w))).foldl
      (fun a b => a + b.close) 0
      = ∑ j ∈ Finset.Icc (i - w) i, (data.getD j default).close := by
    rw [foldl_add_close, zero_add,
      sum_map_eq_sum_range _ _ default, hsublen]
    rw [← Nat.Ico_succ_right, Finset.sum_Ico_eq_sum_range]
    refine Finset.sum_congr rfl ?_
    intro j hj
    rw [Finset.mem_range] at hj
    rw [getD_take_drop data (i - w) (i + 1 - (i - w)) j hj (by omega)]
  rw [windowMeanSpec]
  simp only [hlo, MovingAveragePoint.mk.injEq]
  refine ⟨trivial, ?_⟩
  rw [hsum, hsublen]
  have hd : i + 1 - (i - w) = i - (i - w) + 1 := by omega
  rw [hd]

lemma movingAverage_singleton (r : OhlcvRecord) (w : ℕ) :
    movingAverage [r] w = [{ date := r.date, average := r.close }] := by
  have hl : (movingAverage [r] w).length = 1 := by
    rw [movingAverage_length]; rfl
  have hg := movingAverage_getD [r] w 0 (by simp)
  rw [windowMeanSpec_zero] at hg
  cases hml : movingAverage [r] w with
  | nil => rw [hml] at hl; simp at hl
  | cons x t =>
      cases t with
      | nil =>
          rw [hml] at hg
          simp only [List.getD_cons_zero] at hg
          simp [hg]
      | cons y u => rw [hml] at hl; simp at hl

/-- CLAIM C1.  For every series and window parameter, `movingAverage` returns
a same-length sequence with aligned dates; entry `i`'s average is the
arithmetic mean of `close` over the expanding window `[max(0, i-w), i]`; in
particular the first average equals the first close, and a singleton series
maps to a singleton whose average is that record's close. -/
theorem C1_movingAverage_correct (data : List OhlcvRecord) (w i : ℕ)
    (h : i < data.length) :
    (movingAverage data w).length = data.length ∧
    ((movingAverage data w).getD i default).date = (data.getD i default).date ∧
    ((movingAverage data w).getD i default).average = windowMeanSpec data w i ∧
    ((movingAverage data w).getD 0 default).average = (data.getD 0 default).close ∧
    ∀ r : OhlcvRecord, movingAverage [r] w = [{ date := r.date, average := r.close }] := by
  have h0 : 0 < data.length := Nat.lt_of_le_of_lt (Nat.zero_le i) h
  refine ⟨movingAverage_length data w, ?_, ?_, ?_, ?_⟩
  · rw [movingAverage_getD data w i h]
  · rw [movingAverage_getD data w i h]
  · rw [movingAverage_getD data w 0 h0, windowMeanSpec_zero]
  · intro r
    exact movingAverage_singleton r w

/-- Witness for C1 at a concrete three-record series, window 1, index 2. -/
theorem C1_witness :
    let r1 : OhlcvRecord := ⟨1, 10, 10, 10, 10, some 100⟩
    let r2 : OhlcvRecord := ⟨2, 12, 12, 12, 12, some 200⟩
    let r3 : OhlcvRecord := ⟨3, 8, 8, 8, 8, some 150⟩
    2 < [r1, r2, r3].length ∧
    ((movingAverage [r1, r2, r3] 1).length = [r1, r2, r3].length ∧
     ((movingAverage [r1, r2, r3] 1).getD 2 default).date
        = ([r1, r2, r3].getD 2 default).date ∧
     ((movingAverage [r1, r2, r3] 1).getD 2 default).average
        = windowMeanSpec [r1, r2, r3] 1 2 ∧
     ((movingAverage [r1, r2, r3] 1).getD 0 default).average
        = ([r1, r2, r3].getD 0 default).close ∧
     ∀ r : OhlcvRecord, movingAverage [r] 1
        = [{ date := r.date, average := r.close }]) :=
  ⟨by decide, C1_movingAverage_correct _ 1 2 (by decide)⟩

/-- CLAIM C7.  The rendered moving-average overlay uses window parameter 49
(lookback 49 plus the current record): the plotted average at `i` is the mean
of `close` over `series[max(0, i-49) .. i]`, a window of at most 50
elements. -/
theorem C7_overlay_window_50 (data : List OhlcvRecord) (i : ℕ)
    (h : i < data.length) :
    movingAverageWindowSize = 49 ∧
    ((movingAverageData data).getD i default).average
      = windowMeanSpec data 49 i ∧
    (Finset.Icc ((max 0 ((i : ℤ) - 49)).toNat) i).card ≤ 50 := by
  refine ⟨rfl, ?_, ?_⟩
  · rw [movingAverageData, movingAverageWindowSize, movingAverage_getD data 49 i h]
  · rw [Nat.card_Icc]
    omega

/-- Witness for C7 at a concrete two-record series, index 1. -/
theorem C7_witness :
    let r1 : OhlcvRecord := ⟨1, 10, 10, 10, 10, some 100⟩
    let r2 : OhlcvRecord := ⟨2, 12, 12, 12, 12, some 200⟩
    1 < [r1, r2].length ∧
    (movingAverageWindowSize = 49 ∧
     ((movingAverageData [r1, r2]).getD 1 default).average
        = windowMeanSpec [r1, r2] 49 1 ∧
     (Finset.Icc ((max 0 ((1 : ℤ) - 49)).toNat) 1).card ≤ 50) :=
  ⟨by decide, C7_overlay_window_50 _ 1 (by decide)⟩

/-- Loop body of d3's left bisector, as invoked by `generateCrosshair`
(StockChart.jsx line 227: `d3.bisector((d) => d.date).left`).  The d3 loop is
`while (lo < hi) { mid = (lo + hi) >>> 1; if (f(a[mid]) < x) lo = mid + 1;
else hi = mid; } return lo;`.  The loop runs at most `hi - lo` iterations
(each step shrinks the interval), so it is embedded structurally with that
much fuel; `bisectLeftGo_exact` below shows the fuel never runs out while
`lo < hi`. -/
def bisectLeftGo (data : List OhlcvRecord) (x : ℚ) :
    ℕ → ℕ → ℕ → ℕ
  | 0, lo, _ => lo
  | fuel + 1, lo, hi =>
      if lo < hi then
        if (data.getD ((lo + hi) / 2) default).date < x then
          bisectLeftGo data x fuel ((lo + hi) / 2 + 1) hi
        else
          bisectLeftGo data x fuel lo ((lo + hi) / 2)
      else lo

/-- `bisectDate(data, x, lo)` with upper bound `hi = data.length`, exactly as
`generateCrosshair` calls it. -/
def bisectLeft (data : List OhlcvRecord) (x : ℚ) (lo hi : ℕ) : ℕ :=
  bisectLeftGo data x (hi - lo) lo hi

/-- Which branch of the `generateCrosshair` lookup produced the record. -/
inductive LocateBranch
  | atFirst
  | atLast
  | nearest
deriving DecidableEq, Repr

/-- Embedding of the nearest-point lookup of `generateCrosshair`
(StockChart.jsx lines 237-249): `i = bisectDate(data, correspondingDate, 1)`;
if `i === 0` take `data[0]`; if `i >= data.length` take the last record;
otherwise compare distances to `data[i-1]` and `data[i]`.  The second
component records which branch fired. -/
def locateWithBranch (data : List OhlcvRecord) (correspondingDate : ℚ) :
    OhlcvRecord × LocateBranch :=
  let i := bisectLeft data correspondingDate 1 data.length
  if i = 0 then (data.getD 0 default, LocateBranch.atFirst)
  else if i ≥ data.length then
    (data.getD (data.length - 1) default, LocateBranch.atLast)
  else
    let d0 := data.getD (i - 1) default
    let d1 := data.getD i default
    if correspondingDate - d0.date > d1.date - correspondingDate then
      (d1, LocateBranch.nearest)
    else (d0, LocateBranch.nearest)

/-- The record the crosshair snaps to. -/
def locate (data : List OhlcvRecord) (t : ℚ) : OhlcvRecord :=
  (locateWithBranch data t).1

/-- Boolean rendering of the caller-guaranteed invariant: dates strictly
increase along the series. -/
def datesIncreasing : List OhlcvRecord → Bool
  | [] => true
  | [_] => true
  | a :: b :: rest => decide (a.date < b.date) && datesIncreasing (b :: rest)

lemma datesIncreasing_tail (a : OhlcvRecord) (l : List OhlcvRecord)
    (h : datesIncreasing (a :: l) = true) : datesIncreasing l = true := by
  cases l with
  | nil => rfl
  | cons b r =>
      rw [datesIncreasing, Bool.and_eq_true] at h
      exact h.2

lemma datesIncreasing_head_lt (a : OhlcvRecord) (l : List OhlcvRecord)
    (h : datesIncreasing (a :: l) = true) :
    ∀ k, k < l.length → a.date < (l.getD k default).date := by
  induction l generalizing a with
  | nil => intro k hk; simp at hk
  | cons b r ih =>
      intro k hk
      rw [datesIncreasing, Bool.and_eq_true, decide_eq_true_eq] at h
      cases k with
      | zero => simpa using h.1
      | succ k =>
          have hk2 : k < r.length := by simpa using hk
          have := ih b h.2 k hk2
          calc a.date < b.date := h.1
            _ < ((b :: r).getD (k + 1) default).date := by simpa using this

lemma datesIncreasing_getD_lt (data : List OhlcvRecord)
    (h : datesIncreasing data = true) :
    ∀ i j, i < j → j < data.length →
      (data.getD i default).date < (data.getD j default).date := by
  induction data with
  | nil => intro i j _ hj; simp at hj
  | cons a l ih =>
      intro i j hij hj
      cases i with
      | zero =>
          cases j with
          | zero => omega
          | succ j =>
              have hjl : j < l.length := by simpa using hj
              simpa using datesIncreasing_head_lt a l h j hjl
      | succ i =>
          cases j with
          | zero => omega
          | succ j =>
              have hjl : j < l.length := by simpa using hj
              simpa using ih (datesIncreasing_tail a l h) i j (by omega) hjl

lemma bisectLeftGo_ge (data : List OhlcvRecord) (x : ℚ) :
    ∀ fuel lo hi, lo ≤ bisectLeftGo data x fuel lo hi := by
  intro fuel
  induction fuel with
  | zero => intro lo hi; exact Nat.le_refl lo
  | succ fuel ih =>
      intro lo hi
      rw [bisectLeftGo]
      by_cases hlt : lo < hi
      · rw [if_pos hlt]
        by_cases hm : (data.getD ((lo + hi) / 2) default).date < x
        · rw [if_pos hm]
          have h1 := ih ((lo + hi) / 2 + 1) hi
          omega
        · rw [if_neg hm]
          exact ih lo ((lo + hi) / 2)
      · rw [if_neg hlt]

lemma bisectLeftGo_exact (data : List OhlcvRecord) (x : ℚ) (tgt : ℕ) :
    ∀ fuel lo hi, hi - lo ≤ fuel → lo ≤ tgt → tgt ≤ hi →
      (∀ j, lo ≤ j → j < tgt → (data.getD j default).date < x) →
      (∀ j, tgt ≤ j → j < hi → ¬ (data.getD j default).date < x) →
      bisectLeftGo data x fuel lo hi = tgt := by
  intro fuel
  induction fuel with
  | zero =>
      intro lo hi hfuel h1 h2 _ _
      rw [bisectLeftGo]
      omega
  | succ fuel ih =>
      intro lo hi hfuel h1 h2 hlow hhigh
      rw [bisectLeftGo]
      by_cases hlt : lo < hi
      · rw [if_pos hlt]
        have hmid1 : lo ≤ (lo + hi) / 2 := by omega
        have hmid2 : (lo + hi) / 2 < hi := by omega
        by_cases hm : (data.getD ((lo + hi) / 2) default).date < x
        · rw [if_pos hm]
          have htgt : (lo + hi) / 2 < tgt := by
            by_contra hc
            exact hhigh ((lo + hi) / 2) (by omega) hmid2 hm
          exact ih ((lo + hi) / 2 + 1) hi (by omega) (by omega) h2
            (fun j hj1 hj2 => hlow j (by omega) hj2) hhigh
        · rw [if_neg hm]
          have htgt : tgt ≤ (lo + hi) / 2 := by
            by_contra hc
            exact hm (hlow ((lo + hi) / 2) hmid1 (by omega))
          exact ih lo ((lo + hi) / 2) (by omega) h1 htgt hlow
            (fun j hj1 hj2 => hhigh j hj1 (by omega))
      · rw [if_neg hlt]
        omega

lemma bisectLeft_exact (data : List OhlcvRecord) (x : ℚ) (tgt lo hi : ℕ)
    (h1 : lo ≤ tgt) (h2 : tgt ≤ hi)
    (hlow : ∀ j, lo ≤ j → j < tgt → (data.getD j default).date < x)
    (hhigh : ∀ j, tgt ≤ j → j < hi → ¬ (data.getD j default).date < x) :
    bisectLeft data x lo hi = tgt :=
  bisectLeftGo_exact data x tgt (hi - lo) lo hi (Nat.le_refl _) h1 h2 hlow hhigh

lemma bisectLeft_ge (data : List OhlcvRecord) (x : ℚ) (lo hi : ℕ) :
    lo ≤ bisectLeft data x lo hi :=
  bisectLeftGo_ge data x (hi - lo) lo hi

lemma locateWithBranch_between (data : List OhlcvRecord) (t : ℚ) (i : ℕ)
    (hs : datesIncreasing data = true) (h1 : 1 ≤ i) (h2 : i < data.length)
    (hl : (data.getD (i - 1) default).date < t)
    (hr : t < (data.getD i default).date) :
    locateWithBranch data t =
      (if t - (data.getD (i - 1) default).date
          > (data.getD i default).date - t
       then data.getD i default else data.getD (i - 1) default,
       LocateBranch.nearest) := by
  have hb : bisectLeft data t 1 data.length = i := by
    refine bisectLeft_exact data t i 1 data.length h1 (le_of_lt h2) ?_ ?_
    · intro j hj1 hj2
      rcases Nat.lt_or_ge j (i - 1) with hj | hj
      · exact lt_trans
          (datesIncreasing_getD_lt data hs j (i - 1) hj (by omega)) hl
      · have : j = i - 1 := by omega
        rw [this]; exact hl
    · intro j hj1 hj2 hcon
      rcases Nat.lt_or_ge i j with hj | hj
      · exact absurd hcon (not_lt.mpr (le_of_lt (lt_trans hr
          (datesIncreasing_getD_lt data hs i j hj hj2))))
      · have : j = i := by omega
        rw [this] at hcon
        exact absurd hcon (not_lt.mpr (le_of_lt hr))
  simp only [locateWithBranch, hb]
  rw [if_neg (by omega : ¬ i = 0), if_neg (by omega : ¬ i ≥ data.length)]
  split_ifs <;> rfl

/-- CLAIM C2.  For a date-ordered series and a target strictly between two
consecutive record dates, the crosshair lookup returns whichever neighbour
minimizes the absolute date distance, with ties resolved toward the earlier
record. -/
theorem C2_nearest_point (data : List OhlcvRecord) (t : ℚ) (i : ℕ)
    (hs : datesIncreasing data = true) (h1 : 1 ≤ i) (h2 : i < data.length)
    (hl : (data.getD (i - 1) default).date < t)
    (hr : t < (data.getD i default).date) :
    locate data t =
      if |(data.getD i default).date - t| < |t - (data.getD (i - 1) default).date|
      then data.getD i default
      else data.getD (i - 1) default := by
  rw [locate, locateWithBranch_between data t i hs h1 h2 hl hr]
  rw [abs_of_pos (sub_pos.mpr hr), abs_of_pos (sub_pos.mpr hl)]

/-- Witness for C2: dates 0 and 10, target 7 snaps to the later record. -/
theorem C2_witness :
    let r1 : OhlcvRecord := ⟨0, 1, 1, 1, 1, some 5⟩
    let r2 : OhlcvRecord := ⟨10, 2, 2, 2, 2, some 6⟩
    (datesIncreasing [r1, r2] = true ∧ 1 ≤ 1 ∧ 1 < [r1, r2].length ∧
      ([r1, r2].getD 0 default).date < 7 ∧
      (7 : ℚ) < ([r1, r2].getD 1 default).date) ∧
    locate [r1, r2] 7 =
      (if |([r1, r2].getD 1 default).date - 7|
          < |(7 : ℚ) - ([r1, r2].getD 0 default).date|
       then [r1, r2].getD 1 default
       else [r1, r2].getD 0 default) :=
  ⟨⟨by decide, by decide, by decide, by decide, by decide⟩,
    C2_nearest_point [⟨0, 1, 1, 1, 1, some 5⟩, ⟨10, 2, 2, 2, 2, some 6⟩] 7 1
      (by decide) (by decide) (by decide) (by decide) (by decide)⟩

lemma bisectLeft_before_first (data : List OhlcvRecord) (t : ℚ)
    (hne : data ≠ []) (hs : datesIncreasing data = true)
    (hbefore : t < (data.getD 0 default).date) :
    bisectLeft data t 1 data.length = 1 := by
  have hlen : 1 ≤ data.length := by
    cases data with
    | nil => exact absurd rfl hne
    | cons a l => simp
  refine bisectLeft_exact data t 1 1 data.length (Nat.le_refl 1) hlen ?_ ?_
  · intro j hj1 hj2; omega
  · intro j hj1 hj2 hcon
    have hj0 : (data.getD 0 default).date < (data.getD j default).date :=
      datesIncreasing_getD_lt data hs 0 j (by omega) hj2
    exact absurd hcon (not_lt.mpr (le_of_lt (lt_trans hbefore hj0)))

lemma bisectLeft_after_last (data : List OhlcvRecord) (t : ℚ)
    (hne : data ≠ []) (hs : datesIncreasing data = true)
    (hafter : (data.getD (data.length - 1) default).date < t) :
    bisectLeft data t 1 data.length = data.length := by
  have hlen : 1 ≤ data.length := by
    cases data with
    | nil => exact absurd rfl hne
    | cons a l => simp
  refine bisectLeft_exact data t data.length 1 data.length hlen
    (Nat.le_refl _) ?_ ?_
  · intro j hj1 hj2
    rcases Nat.lt_or_ge j (data.length - 1) with hj | hj
    · exact lt_trans
        (datesIncreasing_getD_lt data hs j (data.length - 1) hj (by omega))
        hafter
    · have : j = data.length - 1 := by omega
      rw [this]; exact hafter
  · intro j hj1 hj2; omega

lemma locateWithBranch_before_first (data : List OhlcvRecord) (t : ℚ)
    (hne : data ≠ []) (hs : datesIncreasing data = true)
    (hbefore : t < (data.getD 0 default).date) :
    (locateWithBranch data t).1 = data.getD 0 default ∧
    (2 ≤ data.length → (locateWithBranch data t).2 = LocateBranch.nearest) ∧
    (data.length = 1 → (locateWithBranch data t).2 = LocateBranch.atLast) := by
  have hlen : 1 ≤ data.length := by
    cases data with
    | nil => exact absurd rfl hne
    | cons a l => simp
  have hb := bisectLeft_before_first data t hne hs hbefore
  rcases Nat.lt_or_ge 1 data.length with h2 | h2
  · -- at least two records: the distance-comparison branch fires
    have hd01 : (data.getD 0 default).date < (data.getD 1 default).date :=
      datesIncreasing_getD_lt data hs 0 1 Nat.zero_lt_one h2
    have hcond : ¬ (t - (data.getD 0 default).date
        > (data.getD 1 default).date - t) := by
      have ha : t - (data.getD 0 default).date < 0 := by linarith
      have hbp : 0 < (data.getD 1 default).date - t := by linarith
      linarith
    simp only [locateWithBranch, hb]
    rw [if_neg (by omega : ¬ (1 : ℕ) = 0),
      if_neg (by omega : ¬ (1 : ℕ) ≥ data.length), if_neg hcond]
    exact ⟨rfl, fun _ => rfl, fun hc => absurd hc (by omega)⟩
  · -- a singleton series: the length-boundary branch fires
    have h1 : data.length = 1 := by omega
    simp only [locateWithBranch, hb]
    rw [if_neg (by omega : ¬ (1 : ℕ) = 0),
      if_pos (by omega : (1 : ℕ) ≥ data.length)]
    rw [h1]
    exact ⟨rfl, fun hc => absurd hc (by omega), fun _ => rfl⟩

lemma locateWithBranch_after_last (data : List OhlcvRecord) (t : ℚ)
    (hne : data ≠ []) (hs : datesIncreasing data = true)
    (hafter : (data.getD (data.length - 1) default).date < t) :
    locateWithBranch data t
      = (data.getD (data.length - 1) default, LocateBranch.atLast) := by
  have hlen : 1 ≤ data.length := by
    cases data with
    | nil => exact absurd rfl hne
    | cons a l => simp
  have hb := bisectLeft_after_last data t hne hs hafter
  simp only [locateWithBranch, hb]
  rw [if_neg (by omega : ¬ data.length = 0),
    if_pos (le_refl data.length)]

/-- CLAIM C4.  For a non-empty date-ordered series, a target date before the
first record's date resolves to `series[0]`, and a target after the last
record's date resolves to the last record. -/
theorem C4_boundary_lookup (data : List OhlcvRecord) (t : ℚ)
    (hne : data ≠ []) (hs : datesIncreasing data = true) :
    (t < (data.getD 0 default).date → locate data t = data.getD 0 default) ∧
    ((data.getD (data.length - 1) default).date < t →
      locate data t = data.getD (data.length - 1) default) := by
  constructor
  · intro hbefore
    exact (locateWithBranch_before_first data t hne hs hbefore).1
  · intro hafter
    rw [locate, locateWithBranch_after_last data t hne hs hafter]

/-- Witness for C4 on a concrete two-record series, with targets on both
sides of the data. -/
theorem C4_witness :
    let r1 : OhlcvRecord := ⟨0, 1, 1, 1, 1, some 5⟩
    let r2 : OhlcvRecord := ⟨10, 2, 2, 2, 2, some 6⟩
    ([r1, r2] ≠ [] ∧ datesIncreasing [r1, r2] = true) ∧
    (((-5 : ℚ) < ([r1, r2].getD 0 default).date →
        locate [r1, r2] (-5) = [r1, r2].getD 0 default) ∧
     (([r1, r2].getD ([r1, r2].length - 1) default).date < (-5 : ℚ) →
        locate [r1, r2] (-5) = [r1, r2].getD ([r1, r2].length - 1) default)) :=
  ⟨⟨by decide, by decide⟩,
    C4_boundary_lookup [⟨0, 1, 1, 1, 1, some 5⟩, ⟨10, 2, 2, 2, 2, some 6⟩]
      (-5) (by decide) (by decide)⟩

lemma locateWithBranch_ne_atFirst (data : List OhlcvRecord) (t : ℚ) :
    (locateWithBranch data t).2 ≠ LocateBranch.atFirst := by
  have hge := bisectLeft_ge data t 1 data.length
  simp only [locateWithBranch]
  rw [if_neg (by omega : ¬ bisectLeft data t 1 data.length = 0)]
  split_ifs <;> simp

/-- CLAIM C10, counterexample.  On a singleton series a target before the
first record's date is resolved by the `i >= data.length` branch, not by the
distance-comparison branch the claim names (the result is still the sole
record). -/
theorem C10_counterexample :
    (5 : ℚ) < ((10 : ℚ)) ∧
    datesIncreasing [(⟨10, 1, 1, 1, 1, some 1⟩ : OhlcvRecord)] = true ∧
    (5 : ℚ) < (([(⟨10, 1, 1, 1, 1, some 1⟩ : OhlcvRecord)].getD 0 default)).date ∧
    (locateWithBranch [(⟨10, 1, 1, 1, 1, some 1⟩ : OhlcvRecord)] 5).2
      = LocateBranch.atLast ∧
    (locateWithBranch [(⟨10, 1, 1, 1, 1, some 1⟩ : OhlcvRecord)] 5).2
      ≠ LocateBranch.nearest := by
  refine ⟨by norm_num, by decide, by decide, by decide, by decide⟩

/-- CLAIM C10, amended.  For every non-empty date-ordered series and every
target date, the bisector is invoked with lower bound 1, so the returned
index is always at least 1 and the `i === 0` branch is unreachable; a target
before the first record's date resolves to `series[0]` — through the
distance-comparison branch when the series has at least two records, and
through the `i >= length` branch for a singleton. -/
theorem C10_amended_lower_bound (data : List OhlcvRecord) (t : ℚ)
    (hne : data ≠ []) (hs : datesIncreasing data = true) :
    1 ≤ bisectLeft data t 1 data.length ∧
    (locateWithBranch data t).2 ≠ LocateBranch.atFirst ∧
    (t < (data.getD 0 default).date →
      locate data t = data.getD 0 default ∧
      (2 ≤ data.length →
        (locateWithBranch data t).2 = LocateBranch.nearest) ∧
      (data.length = 1 →
        (locateWithBranch data t).2 = LocateBranch.atLast)) := by
  refine ⟨bisectLeft_ge data t 1 data.length,
    locateWithBranch_ne_atFirst data t, ?_⟩
  intro hbefore
  obtain ⟨hfst, hnear, hsing⟩ :=
    locateWithBranch_before_first data t hne hs hbefore
  exact ⟨hfst, hnear, hsing⟩

/-- Witness for the amended C10 on a concrete two-record series with a
target before the first date. -/
theorem C10_amended_witness :
    let r1 : OhlcvRecord := ⟨0, 1, 1, 1, 1, some 5⟩
    let r2 : OhlcvRecord := ⟨10, 2, 2, 2, 2, some 6⟩
    ([r1, r2] ≠ [] ∧ datesIncreasing [r1, r2] = true) ∧
    (1 ≤ bisectLeft [r1, r2] (-5) 1 [r1, r2].length ∧
     (locateWithBranch [r1, r2] (-5)).2 ≠ LocateBranch.atFirst ∧
     ((-5 : ℚ) < ([r1, r2].getD 0 default).date →
       locate [r1, r2] (-5) = [r1, r2].getD 0 default ∧
       (2 ≤ [r1, r2].length →
         (locateWithBranch [r1, r2] (-5)).2 = LocateBranch.nearest) ∧
       ([r1, r2].length = 1 →
         (locateWithBranch [r1, r2] (-5)).2 = LocateBranch.atLast))) :=
  ⟨⟨by decide, by decide⟩,
    C10_amended_lower_bound [⟨0, 1, 1, 1, 1, some 5⟩, ⟨10, 2, 2, 2, 2, some 6⟩]
      (-5) (by decide) (by decide)⟩

/-- Embedding of the `volData` filter (StockChart.jsx lines 184-186): keep
records whose volume is neither null nor zero. -/
def volData (data : List OhlcvRecord) : List OhlcvRecord :=
  data.filter (fun d => match d.volume with
    | none => false
    | some v => decide (v ≠ 0))

/-- Fill color of a rising volume bar (`'#03a678'`, StockChart.jsx line 214). -/
def risingColor : String := "#03a678"

/-- Fill color of a falling volume bar (`'#c0392b'`, StockChart.jsx line 217). -/
def fallingColor : String := "#c0392b"

/-- Embedding of the volume-bar `fill` callback (StockChart.jsx lines
212-220): bar 0 is the rising color; bar `i > 0` compares
`volData[i - 1].close` (the previous record of the filtered sequence) with
the current record's close. -/
def volBarFill (vd : List OhlcvRecord) (d : OhlcvRecord) (i : ℕ) : String :=
  if i = 0 then risingColor
  else if (vd.getD (i - 1) default).close > d.close then fallingColor
  else risingColor

/-- The colors of all plotted volume bars, in order: d3 applies the fill
callback to each datum of `volData` with its index. -/
def volBarFills (data : List OhlcvRecord) : List String :=
  (volData data).mapIdx (fun i d => volBarFill (volData data) d i)

lemma volBarFills_length (data : List OhlcvRecord) :
    (volBarFills data).length = (volData data).length := by
  simp [volBarFills]

lemma volBarFills_getD (data : List OhlcvRecord) (i : ℕ)
    (h : i < (volData data).length) :
    (volBarFills data).getD i ""
      = volBarFill (volData data) ((volData data).getD i default) i := by
  have hlen : i < (volBarFills data).length := by
    rwa [volBarFills_length]
  rw [getD_eq_get _ _ hlen, getD_eq_get _ _ h]
  exact List.get_mapIdx (volData data) _ i h

/-- CLAIM C3.  One color per filtered volume record; bar 0 is the rising
color; bar `i > 0` is the falling color exactly when the previous filtered
record's close exceeds the current close; only the two palette colors ever
occur. -/
theorem C3_volume_colors (data : List OhlcvRecord) (i : ℕ)
    (h : i < (volData data).length) :
    (volBarFills data).length = (volData data).length ∧
    (volBarFills data).getD 0 "" = risingColor ∧
    (0 < i → ((volBarFills data).getD i "" = fallingColor ↔
      ((volData data).getD i default).close
        < ((volData data).getD (i - 1) default).close)) ∧
    ((volBarFills data).getD i "" = risingColor ∨
      (volBarFills data).getD i "" = fallingColor) := by
  have h0 : 0 < (volData data).length := Nat.lt_of_le_of_lt (Nat.zero_le i) h
  have hcolors : risingColor ≠ fallingColor := by decide
  refine ⟨volBarFills_length data, ?_, ?_, ?_⟩
  · rw [volBarFills_getD data 0 h0, volBarFill, if_pos rfl]
  · intro hpos
    rw [volBarFills_getD data i h, volBarFill, if_neg (by omega : ¬ i = 0)]
    constructor
    · intro hc
      by_contra hlt
      rw [if_neg hlt] at hc
      exact hcolors hc
    · intro hlt
      rw [if_pos hlt]
  · rw [volBarFills_getD data i h, volBarFill]
    split_ifs
    · exact Or.inl rfl
    · exact Or.inr rfl
    · exact Or.inl rfl

/-- Witness for C3 on the spec §8 example: volumes 100/200/150 with closes
10/12/8 classify as rising, rising, falling. -/
theorem C3_witness :
    let r1 : OhlcvRecord := ⟨1, 10, 10, 10, 10, some 100⟩
    let r2 : OhlcvRecord := ⟨2, 12, 12, 12, 12, some 200⟩
    let r3 : OhlcvRecord := ⟨3, 8, 8, 8, 8, some 150⟩
    2 < (volData [r1, r2, r3]).length ∧
    ((volBarFills [r1, r2, r3]).length = (volData [r1, r2, r3]).length ∧
     (volBarFills [r1, r2, r3]).getD 0 "" = risingColor ∧
     (0 < 2 → ((volBarFills [r1, r2, r3]).getD 2 "" = fallingColor ↔
       ((volData [r1, r2, r3]).getD 2 default).close
         < ((volData [r1, r2, r3]).getD 1 default).close)) ∧
     ((volBarFills [r1, r2, r3]).getD 2 "" = risingColor ∨
       (volBarFills [r1, r2, r3]).getD 2 "" = fallingColor)) :=
  ⟨by decide, C3_volume_colors [⟨1, 10, 10, 10, 10, some 100⟩,
    ⟨2, 12, 12, 12, 12, some 200⟩, ⟨3, 8, 8, 8, 8, some 150⟩] 2 (by decide)⟩

/-- Embedding of the render entry point's guard (StockChart.jsx lines 12-16):
`renderChart` is invoked only when `props.data` is present and non-empty;
a null or empty series renders nothing and throws nothing. -/
def stockChartInvokesRender (propsData : Option (List OhlcvRecord)) : Bool :=
  match propsData with
  | none => false
  | some data => decide (0 < data.length)

/-- CLAIM C6.  For a null or empty input series the render entry point is a
no-op: `renderChart` is not invoked, and it is invoked exactly when the
series is non-empty. -/
theorem C6_empty_input_no_op :
    stockChartInvokesRender none = false ∧
    stockChartInvokesRender (some []) = false ∧
    ∀ data : List OhlcvRecord,
      stockChartInvokesRender (some data) = !data.isEmpty := by
  refine ⟨rfl, rfl, ?_⟩
  intro data
  cases data <;> simp [stockChartInvokesRender]

/-- Embedding of the resize-listener registration key (StockChart.jsx line
44): `'resize.' + container.attr('id')`.  In JS, concatenation with a null
attribute value yields the text "null". -/
def resizeEventKey (containerId : Option String) : String :=
  "resize." ++ (match containerId with
    | none => "null"
    | some s => s)

/-- The container of the chart svg is the div rendered at StockChart.jsx line
321, which carries a class but no id attribute, so `container.attr('id')` is
null for every instance of the component. -/
def chartContainerId : Option String := none

/-- CLAIM C9.  The resize listener key evaluates to the constant
"resize.null" for every chart instance: the key is not derived from an
identifier unique to the instance, so two mounted charts overwrite each
other's listeners (repeated renders of one chart do replace rather than
duplicate, since the key is stable). -/
theorem C9_resize_key_shared :
    resizeEventKey chartContainerId = "resize.null" := by
  rfl

/-- Embedding of `d3.min` over clean numeric values (StockChart.jsx lines
72-86): scan the list keeping the least value; undefined (`none`) on an empty
list. -/
def d3min (l : List ℚ) : Option ℚ :=
  l.foldl (fun acc v => match acc with
    | none => some v
    | some m => some (min m v)) none

/-- Embedding of `d3.max` over clean numeric values: the greatest value, or
undefined on an empty list. -/
def d3max (l : List ℚ) : Option ℚ :=
  l.foldl (fun acc v => match acc with
    | none => some v
    | some m => some (max m v)) none

lemma foldl_min_le_init (l : List ℚ) (a : ℚ) : l.foldl min a ≤ a := by
  induction l generalizing a with
  | nil => simp
  | cons x t ih =>
      simp only [List.foldl_cons]
      exact le_trans (ih (min a x)) (min_le_left a x)

lemma foldl_min_le_mem (l : List ℚ) (a : ℚ) :
    ∀ y ∈ l, l.foldl min a ≤ y := by
  induction l generalizing a with
  | nil => simp
  | cons x t ih =>
      intro y hy
      simp only [List.foldl_cons]
      rcases List.mem_cons.mp hy with h | h
      · rw [h]
        exact le_trans (foldl_min_le_init t (min a x)) (min_le_right a x)
      · exact ih (min a x) y h

lemma foldl_min_mem (l : List ℚ) (a : ℚ) :
    l.foldl min a = a ∨ l.foldl min a ∈ l := by
  induction l generalizing a with
  | nil => exact Or.inl rfl
  | cons x t ih =>
      simp only [List.foldl_cons]
      rcases ih (min a x) with h | h
      · rcases min_choice a x with hm | hm
        · exact Or.inl (by rw [h, hm])
        · exact Or.inr (by rw [h, hm]; exact List.mem_cons_self x t)
      · exact Or.inr (List.mem_cons_of_mem x h)

lemma foldl_max_init_le (l : List ℚ) (a : ℚ) : a ≤ l.foldl max a := by
  induction l generalizing a with
  | nil => simp
  | cons x t ih =>
      simp only [List.foldl_cons]
      exact le_trans (le_max_left a x) (ih (max a x))

lemma foldl_max_mem_le (l : List ℚ) (a : ℚ) :
    ∀ y ∈ l, y ≤ l.foldl max a := by
  induction l generalizing a with
  | nil => simp
  | cons x t ih =>
      intro y hy
      simp only [List.foldl_cons]
      rcases List.mem_cons.mp hy with h | h
      · rw [h]
        exact le_trans (le_max_right a x) (foldl_max_init_le t (max a x))
      · exact ih (max a x) y h

lemma foldl_max_mem (l : List ℚ) (a : ℚ) :
    l.foldl max a = a ∨ l.foldl max a ∈ l := by
  induction l generalizing a with
  | nil => exact Or.inl rfl
  | cons x t ih =>
      simp only [List.foldl_cons]
      rcases ih (max a x) with h | h
      · rcases max_choice a x with hm | hm
        · exact Or.inl (by rw [h, hm])
        · exact Or.inr (by rw [h, hm]; exact List.mem_cons_self x t)
      · exact Or.inr (List.mem_cons_of_mem x h)

lemma d3min_go (l : List ℚ) (a : ℚ) :
    l.foldl (fun acc v => match acc with
      | none => some v
      | some m => some (min m v)) (some a) = some (l.foldl min a) := by
  induction l generalizing a with
  | nil => rfl
  | cons x t ih =>
      simp only [List.foldl_cons]
      exact ih (min a x)

lemma d3max_go (l : List ℚ) (a : ℚ) :
    l.foldl (fun acc v => match acc with
      | none => some v
      | some m => some (max m v)) (some a) = some (l.foldl max a) := by
  induction l generalizing a with
  | nil => rfl
  | cons x t ih =>
      simp only [List.foldl_cons]
      exact ih (max a x)

lemma d3min_cons (x : ℚ) (l : List ℚ) :
    d3min (x :: l) = some (l.foldl min x) := by
  rw [d3min]
  simp only [List.foldl_cons]
  exact d3min_go l x

lemma d3max_cons (x : ℚ) (l : List ℚ) :
    d3max (x :: l) = some (l.foldl max x) := by
  rw [d3max]
  simp only [List.foldl_cons]
  exact d3max_go l x

lemma d3min_spec (l : List ℚ) (m : ℚ) (h : d3min l = some m) :
    m ∈ l ∧ ∀ y ∈ l, m ≤ y := by
  cases l with
  | nil => exact absurd h (by rw [d3min]; exact fun hc => Option.noConfusion hc)
  | cons x t =>
      rw [d3min_cons] at h
      injection h with h
      constructor
      · rcases foldl_min_mem t x with hm | hm
        · rw [← h, hm]; exact List.mem_cons_self x t
        · rw [← h]; exact List.mem_cons_of_mem x hm
      · intro y hy
        rcases List.mem_cons.mp hy with hy2 | hy2
        · rw [← h, hy2]; exact foldl_min_le_init t x
        · rw [← h]; exact foldl_min_le_mem t x y hy2

lemma d3max_spec (l : List ℚ) (m : ℚ) (h : d3max l = some m) :
    m ∈ l ∧ ∀ y ∈ l, y ≤ m := by
  cases l with
  | nil => exact absurd h (by rw [d3max]; exact fun hc => Option.noConfusion hc)
  | cons x t =>
      rw [d3max_cons] at h
      injection h with h
      constructor
      · rcases foldl_max_mem t x with hm | hm
        · rw [← h, hm]; exact List.mem_cons_self x t
        · rw [← h]; exact List.mem_cons_of_mem x hm
      · intro y hy
        rcases List.mem_cons.mp hy with hy2 | hy2
        · rw [← h, hy2]; exact foldl_max_init_le t x
        · rw [← h]; exact foldl_max_mem_le t x y hy2

lemma d3min_isSome (l : List ℚ) (h : l ≠ []) : ∃ m, d3min l = some m := by
  cases l with
  | nil => exact absurd rfl h
  | cons x t => exact ⟨t.foldl min x, d3min_cons x t⟩

lemma d3max_isSome (l : List ℚ) (h : l ≠ []) : ∃ m, d3max l = some m := by
  cases l with
  | nil => exact absurd rfl h
  | cons x t => exact ⟨t.foldl max x, d3max_cons x t⟩

/-- The extrema `renderChart` reads from the series (StockChart.jsx lines
72-86): `xMin`/`xMax` over dates, `yMin`/`yMax` over closes. -/
def xMinOf (data : List OhlcvRecord) : Option ℚ :=
  d3min (data.map (fun d => d.date))

/-- Greatest date of the series, as `renderChart` computes it. -/
def xMaxOf (data : List OhlcvRecord) : Option ℚ :=
  d3max (data.map (fun d => d.date))

/-- Least close of the series, as `renderChart` computes it. -/
def yMinOf (data : List OhlcvRecord) : Option ℚ :=
  d3min (data.map (fun d => d.close))

/-- Greatest close of the series, as `renderChart` computes it. -/
def yMaxOf (data : List OhlcvRecord) : Option ℚ :=
  d3max (data.map (fun d => d.close))

/-- The volume value read for the volume scale (StockChart.jsx lines
188-194): `Math.min(d.volume)` and `Math.max(d.volume)` with a single
argument are the volume itself; only filtered (non-null) records reach this
accessor. -/
def volumeVal (d : OhlcvRecord) : ℚ := d.volume.getD 0

/-- Least volume over the filtered records, as `renderChart` computes it. -/
def yMinVolumeOf (data : List OhlcvRecord) : Option ℚ :=
  d3min ((volData data).map volumeVal)

/-- Greatest volume over the filtered records. -/
def yMaxVolumeOf (data : List OhlcvRecord) : Option ℚ :=
  d3max ((volData data).map volumeVal)

/-- The three scale domains `renderChart` derives (StockChart.jsx lines
90-95 and 196-199): time domain `[xMin, xMax]`, price domain
`[yMin - 5, yMax]`, volume domain `[yMinVolume, yMaxVolume]`. -/
structure ScaleModel where
  xDomain : ℚ × ℚ
  yDomain : ℚ × ℚ
  volumeDomain : ℚ × ℚ
deriving DecidableEq, Repr

/-- Derivation of the scale model from a series; undefined when any extremum
is (d3 yields undefined extrema on an empty or fully-filtered series). -/
def deriveScaleModel (data : List OhlcvRecord) : Option ScaleModel :=
  match xMinOf data, xMaxOf data, yMinOf data, yMaxOf data,
      yMinVolumeOf data, yMaxVolumeOf data with
  | some xm, some xM, some ym, some yM, some vm, some vM =>
      some { xDomain := (xm, xM), yDomain := (ym - 5, yM),
             volumeDomain := (vm, vM) }
  | _, _, _, _, _, _ => none

/-- Modelled from the spec: the pixel mapping of a d3 continuous scale
(`d3.scaleLinear` / `d3.scaleTime`) is library code outside src/.  On a
non-degenerate domain it interpolates linearly between the range endpoints;
on a degenerate domain (spec section 7: the scale must still produce a
defined mapping, collapsing to a single fixed line) d3 normalizes every
input to 1/2, the midpoint of the range. -/
def scaleLinearMap (d0 d1 r0 r1 x : ℚ) : ℚ :=
  if d1 - d0 = 0 then r0 + (1 / 2) * (r1 - r0)
  else r0 + ((x - d0) / (d1 - d0)) * (r1 - r0)

/-- The volume scale (StockChart.jsx lines 196-199): domain
`[yMinVolume, yMaxVolume]`, range `[height, height * 3/4]` — the bottom
quarter of the plot. -/
def yVolumeScale (vm vM height v : ℚ) : ℚ :=
  scaleLinearMap vm vM height (height * (3 / 4)) v

lemma scaleLinearMap_left (d0 d1 r0 r1 : ℚ) (h : d1 - d0 ≠ 0) :
    scaleLinearMap d0 d1 r0 r1 d0 = r0 := by
  rw [scaleLinearMap, if_neg h]
  simp

lemma scaleLinearMap_right (d0 d1 r0 r1 : ℚ) (h : d1 - d0 ≠ 0) :
    scaleLinearMap d0 d1 r0 r1 d1 = r1 := by
  rw [scaleLinearMap, if_neg h]
  field_simp

lemma scaleLinearMap_affine (d0 d1 r0 r1 : ℚ) (h : d1 - d0 ≠ 0) :
    ∃ a b, ∀ x, scaleLinearMap d0 d1 r0 r1 x = a * x + b := by
  refine ⟨(r1 - r0) / (d1 - d0), r0 - d0 * ((r1 - r0) / (d1 - d0)), ?_⟩
  intro x
  rw [scaleLinearMap, if_neg h]
  field_simp
  ring

lemma yVolumeScale_bounds (vm vM height v : ℚ) (h0 : 0 ≤ height)
    (h1 : vm ≤ v) (h2 : v ≤ vM) :
    height * (3 / 4) ≤ yVolumeScale vm vM height v ∧
    yVolumeScale vm vM height v ≤ height := by
  rcases eq_or_lt_of_le (le_trans h1 h2) with heq | hlt
  · have hdeg : vM - vm = 0 := by rw [← heq]; ring
    rw [yVolumeScale, scaleLinearMap, if_pos hdeg]
    constructor <;> nlinarith
  · rw [yVolumeScale, scaleLinearMap,
      if_neg (sub_ne_zero.mpr (ne_of_gt hlt))]
    have hd : 0 < vM - vm := by linarith
    have ht0 : 0 ≤ (v - vm) / (vM - vm) := div_nonneg (by linarith) hd.le
    have ht1 : (v - vm) / (vM - vm) ≤ 1 := by
      rw [div_le_one hd]; linarith
    constructor <;> nlinarith [mul_nonneg (sub_nonneg.mpr ht1) h0,
      mul_nonneg ht0 h0]

/-- Spec-side description of the three derived domains: endpoints are
attained extrema of the date, close and filtered-volume sequences, with the
price domain padded by 5 below its minimum and not above its maximum. -/
def scaleDomainsSpec (data : List OhlcvRecord) (sm : ScaleModel) : Prop :=
  (sm.xDomain.1 ∈ data.map (fun d => d.date) ∧
    ∀ d ∈ data, sm.xDomain.1 ≤ d.date) ∧
  (sm.xDomain.2 ∈ data.map (fun d => d.date) ∧
    ∀ d ∈ data, d.date ≤ sm.xDomain.2) ∧
  (∃ ym, ym ∈ data.map (fun d => d.close) ∧ (∀ d ∈ data, ym ≤ d.close) ∧
    sm.yDomain.1 = ym - 5) ∧
  (sm.yDomain.2 ∈ data.map (fun d => d.close) ∧
    ∀ d ∈ data, d.close ≤ sm.yDomain.2) ∧
  (sm.volumeDomain.1 ∈ (volData data).map volumeVal ∧
    ∀ v ∈ (volData data).map volumeVal, sm.volumeDomain.1 ≤ v) ∧
  (sm.volumeDomain.2 ∈ (volData data).map volumeVal ∧
    ∀ v ∈ (volData data).map volumeVal, v ≤ sm.volumeDomain.2)

/-- Spec-side description of the volume scale: it sends the volume domain
linearly onto the bottom quarter of the plot, `[height * 3/4, height]` in
pixel terms. -/
def volumeScaleSpec (sm : ScaleModel) (height : ℚ) : Prop :=
  (sm.volumeDomain.1 < sm.volumeDomain.2 →
    yVolumeScale sm.volumeDomain.1 sm.volumeDomain.2 height
        sm.volumeDomain.1 = height ∧
    yVolumeScale sm.volumeDomain.1 sm.volumeDomain.2 height
        sm.volumeDomain.2 = height * (3 / 4) ∧
    ∃ a b, ∀ v, yVolumeScale sm.volumeDomain.1 sm.volumeDomain.2 height v
        = a * v + b) ∧
  (0 ≤ height → ∀ v, sm.volumeDomain.1 ≤ v → v ≤ sm.volumeDomain.2 →
    height * (3 / 4) ≤ yVolumeScale sm.volumeDomain.1 sm.volumeDomain.2
        height v ∧
    yVolumeScale sm.volumeDomain.1 sm.volumeDomain.2 height v ≤ height)

/-- CLAIM C5.  For a non-empty series with at least one non-zero-volume
record, the derived scale model has `xDomain = [min date, max date]`,
`yDomain = [min close - 5, max close]`, and a volume domain over the filtered
records only, mapped linearly into the bottom quarter of the plot height. -/
theorem C5_scale_derivation (data : List OhlcvRecord) (height : ℚ)
    (hne : data ≠ []) (hv : volData data ≠ []) :
    ∃ sm, deriveScaleModel data = some sm ∧
      scaleDomainsSpec data sm ∧ volumeScaleSpec sm height := by
  have hd : data.map (fun d => d.date) ≠ [] := by
    cases data with
    | nil => exact absurd rfl hne
    | cons a l => simp
  have hc : data.map (fun d => d.close) ≠ [] := by
    cases data with
    | nil => exact absurd rfl hne
    | cons a l => simp
  have hvl : (volData data).map volumeVal ≠ [] := by
    cases hvd : volData data with
    | nil => exact absurd hvd hv
    | cons a l => simp
  obtain ⟨xm, hxm⟩ := d3min_isSome _ hd
  obtain ⟨xM, hxM⟩ := d3max_isSome _ hd
  obtain ⟨ym, hym⟩ := d3min_isSome _ hc
  obtain ⟨yM, hyM⟩ := d3max_isSome _ hc
  obtain ⟨vm, hvm⟩ := d3min_isSome _ hvl
  obtain ⟨vM, hvM⟩ := d3max_isSome _ hvl
  obtain ⟨hxm_mem, hxm_le⟩ := d3min_spec _ _ hxm
  obtain ⟨hxM_mem, hxM_le⟩ := d3max_spec _ _ hxM
  obtain ⟨hym_mem, hym_le⟩ := d3min_spec _ _ hym
  obtain ⟨hyM_mem, hyM_le⟩ := d3max_spec _ _ hyM
  obtain ⟨hvm_mem, hvm_le⟩ := d3min_spec _ _ hvm
  obtain ⟨hvM_mem, hvM_le⟩ := d3max_spec _ _ hvM
  refine ⟨⟨(xm, xM), (ym - 5, yM), (vm, vM)⟩, ?_, ?_, ?_, ?_⟩
  · simp only [deriveScaleModel, xMinOf, xMaxOf, yMinOf, yMaxOf,
      yMinVolumeOf, yMaxVolumeOf, hxm, hxM, hym, hyM, hvm, hvM]
  · refine ⟨⟨hxm_mem, ?_⟩, ⟨hxM_mem, ?_⟩, ⟨ym, hym_mem, ?_, rfl⟩,
      ⟨hyM_mem, ?_⟩, ⟨hvm_mem, hvm_le⟩, ⟨hvM_mem, hvM_le⟩⟩
    · intro d hd2; exact hxm_le _ (List.mem_map_of_mem _ hd2)
    · intro d hd2; exact hxM_le _ (List.mem_map_of_mem _ hd2)
    · intro d hd2; exact hym_le _ (List.mem_map_of_mem _ hd2)
    · intro d hd2; exact hyM_le _ (List.mem_map_of_mem _ hd2)
  · intro hlt
    have hden : vM - vm ≠ 0 := sub_ne_zero.mpr (ne_of_gt hlt)
    exact ⟨scaleLinearMap_left vm vM height (height * (3 / 4)) hden,
      scaleLinearMap_right vm vM height (height * (3 / 4)) hden,
      scaleLinearMap_affine vm vM height (height * (3 / 4)) hden⟩
  · intro hh v h1 h2
    exact yVolumeScale_bounds vm vM height v hh h1 h2

/-- Witness for C5 at a concrete two-record series and height 200. -/
theorem C5_witness :
    let r1 : OhlcvRecord := ⟨1, 1, 1, 1, 10, some 100⟩
    let r2 : OhlcvRecord := ⟨2, 2, 2, 2, 12, some 200⟩
    ([r1, r2] ≠ [] ∧ volData [r1, r2] ≠ []) ∧
    (∃ sm, deriveScaleModel [r1, r2] = some sm ∧
      scaleDomainsSpec [r1, r2] sm ∧ volumeScaleSpec sm 200) :=
  ⟨⟨by decide, by decide⟩,
    C5_scale_derivation [⟨1, 1, 1, 1, 10, some 100⟩, ⟨2, 2, 2, 2, 12, some 200⟩]
      200 (by decide) (by decide)⟩

/-- CLAIM C8.  For any non-empty series the price domain
`[min close - 5, max close]` has width at least 5, hence strictly positive
even when all closes coincide, and the price scale maps its endpoints to the
pixel extremes; when the time domain is degenerate (`min date = max date`)
the time scale collapses to the defined fixed midline `width / 2` rather
than an undefined mapping. -/
theorem C8_degenerate_domain (data : List OhlcvRecord) (width height : ℚ)
    (hne : data ≠ []) :
    ∃ ym yM, yMinOf data = some ym ∧ yMaxOf data = some yM ∧
      ym ≤ yM ∧ (5 : ℚ) ≤ yM - (ym - 5) ∧ 0 < yM - (ym - 5) ∧
      scaleLinearMap (ym - 5) yM height 0 (ym - 5) = height ∧
      scaleLinearMap (ym - 5) yM height 0 yM = 0 ∧
      (∀ xm, xMinOf data = some xm → xMaxOf data = some xm →
        ∀ t, scaleLinearMap xm xm 0 width t = width / 2) := by
  have hc : data.map (fun d => d.close) ≠ [] := by
    cases data with
    | nil => exact absurd rfl hne
    | cons a l => simp
  obtain ⟨ym, hym⟩ := d3min_isSome _ hc
  obtain ⟨yM, hyM⟩ := d3max_isSome _ hc
  obtain ⟨hym_mem, _⟩ := d3min_spec _ _ hym
  obtain ⟨_, hyM_le⟩ := d3max_spec _ _ hyM
  have hle : ym ≤ yM := hyM_le ym hym_mem
  have hwidth : (5 : ℚ) ≤ yM - (ym - 5) := by linarith
  have hden : yM - (ym - 5) ≠ 0 := by
    intro hc2; rw [hc2] at hwidth; norm_num at hwidth
  refine ⟨ym, yM, hym, hyM, hle, hwidth, by linarith, ?_, ?_, ?_⟩
  · exact scaleLinearMap_left (ym - 5) yM height 0 hden
  · exact scaleLinearMap_right (ym - 5) yM height 0 hden
  · intro xm _ _ t
    rw [scaleLinearMap, if_pos (sub_self xm)]
    ring

/-- Witness for C8 at a one-record series, whose price and time domains are
both degenerate, with width 100 and height 50. -/
theorem C8_witness :
    let r : OhlcvRecord := ⟨3, 2, 2, 2, 7, some 1⟩
    [r] ≠ [] ∧
    (∃ ym yM, yMinOf [r] = some ym ∧ yMaxOf [r] = some yM ∧
      ym ≤ yM ∧ (5 : ℚ) ≤ yM - (ym - 5) ∧ 0 < yM - (ym - 5) ∧
      scaleLinearMap (ym - 5) yM (50 : ℚ) 0 (ym - 5) = 50 ∧
      scaleLinearMap (ym - 5) yM (50 : ℚ) 0 yM = 0 ∧
      (∀ xm, xMinOf [r] = some xm → xMaxOf [r] = some xm →
        ∀ t, scaleLinearMap xm xm 0 (100 : ℚ) t = 100 / 2)) :=
  ⟨by decide, C8_degenerate_domain [⟨3, 2, 2, 2, 7, some 1⟩] 100 50 (by decide)⟩
